import Mathlib

/-!
Verification of the environment-variables inspection action.

This file gives a shallow embedding, in Lean, of the TypeScript program in
`src/index.ts` (the canonical variant of the script: grouping by underscore
delimiter, aligned multi-line rendering, runner/system information, top-level
failure boundary), and proves the specified properties of that embedding.

Modelling conventions:
- `process.env` is modelled as a list of `KeyValuePair` (a finite mapping
  listed as pairs; the program's `process.env[key] || ''` normalisation means
  every value is a plain string, possibly empty).
- JavaScript's default `Array.prototype.sort()` compares strings by code
  units; it is modelled by the executable comparison `strLe` (lexicographic
  on the characters' code values) together with `sortBy`, an insertion sort.
  `Array.prototype.sort` is stable (ES2019), and stable sorts with the same
  comparator agree, so insertion sort is a faithful model.
- The call `singleVars.sort((a, b) => a.key.localeCompare(b.key))` uses the
  locale-sensitive comparison `localeCompare`, whose ordering depends on the
  runtime's locale data and is not determined by the source.  It is modelled
  by an arbitrary comparator parameter `lc : String → String → Bool`, read as
  "localeCompare(a, b) ≤ 0".
- A JavaScript `Map` preserves insertion order; it is modelled by an
  association list to which entries are appended, `addToGroup` mirroring
  `groupedVars.set`/`push`.
- The `@actions/core` logging sink (`startGroup`/`info`/`endGroup`) is
  modelled by a list of `OutputEvent`s.
-/

namespace EnvAction

/-- A key-value pair, as in the `KeyValuePair` interface of the source. -/
structure KeyValuePair where
  key : String
  value : String
deriving DecidableEq, Repr

/-- Lexicographic strict comparison of character lists by code value; this is
how JavaScript's default string comparison (used by `Array.prototype.sort()`
with no comparator) orders strings. -/
def strLtB : List Char → List Char → Bool
  | [], [] => false
  | [], _ :: _ => true
  | _ :: _, [] => false
  | a :: as, b :: bs =>
    if a < b then true
    else if b < a then false
    else strLtB as bs

/-- Non-strict code-point comparison of strings: `a` sorts no later than `b`. -/
def strLe (a b : String) : Bool := !(strLtB b.toList a.toList)

/-- Models `key.includes('_')`. -/
def hasUnderscore (s : String) : Bool := s.toList.contains '_'

/-- Models `key.split('_')[0]`: the part of the key before the first
underscore (the whole key when there is none). -/
def prefixOf (s : String) : String := String.mk (s.toList.takeWhile (fun c => c ≠ '_'))

/-- Models `key.padEnd(n)`: pad on the right with spaces up to length `n`
(no truncation when the string is already at least that long). -/
def padEnd (s : String) (n : Nat) : String :=
  s ++ String.mk (List.replicate (n - s.length) ' ')

/-- Helper for `splitOnNl`: returns the first line of the character list and
the remaining lines. -/
def splitLinesAux : List Char → List Char × List (List Char)
  | [] => ([], [])
  | c :: cs =>
    let r := splitLinesAux cs
    if c = '\n' then ([], r.1 :: r.2)
    else (c :: r.1, r.2)

/-- Models `value.split('\n')`: the list of lines (always non-empty). -/
def splitOnNl (s : String) : List String :=
  ((splitLinesAux s.toList).1 :: (splitLinesAux s.toList).2).map String.mk

/-- Models `value.includes('\n')`. -/
def hasNewline (s : String) : Bool := s.toList.contains '\n'

/-- Insert an element into a list so that it lands before the first element
it compares `le` to; auxiliary to `sortBy`. -/
def orderedInsert {α : Type} (le : α → α → Bool) (a : α) : List α → List α
  | [] => [a]
  | b :: l => if le a b then a :: b :: l else b :: orderedInsert le a l

/-- Stable insertion sort; models JavaScript's (stable) `Array.prototype.sort`
with the comparator `le`. -/
def sortBy {α : Type} (le : α → α → Bool) : List α → List α
  | [] => []
  | a :: l => orderedInsert le a (sortBy le l)

/-- Comparison of pairs by key in code-point order. -/
def keyLe (a b : KeyValuePair) : Bool := strLe a.key b.key

/-- Models `getAllEnvironmentVariables`: all environment variables sorted by
key (`Object.keys(process.env).sort().map(...)`). -/
def getAllEnvironmentVariables (env : List KeyValuePair) : List KeyValuePair :=
  sortBy keyLe env

/-- Append `a` to the group list of the entry whose map key is `p`
(the entry mutated by `groupedVars.get(prefix)!.push(...)`). -/
def updGroup {α : Type} (p : String) (a : α) (e : String × List α) :
    String × List α :=
  if e.1 == p then (e.1, e.2 ++ [a]) else e

/-- Models adding an entry to the `groupedVars` map at key `p`
(`if (!groupedVars.has(prefix)) groupedVars.set(prefix, []);`
`groupedVars.get(prefix)!.push({key, value})`), with the map represented as
an insertion-ordered association list. -/
def addToGroup {α : Type} (groups : List (String × List α)) (p : String) (a : α) :
    List (String × List α) :=
  if groups.any (fun e => e.1 == p) then groups.map (updGroup p a)
  else groups ++ [(p, [a])]

/-- One iteration of the classification loop of `printAllEnvironmentVariables`:
a key without underscore goes to the single-variables list, any other key is
grouped under its underscore-delimited first component.  Generic in the key
projection `k` so that the same algorithm can be run on bare key lists. -/
def classifyStep {α : Type} (k : α → String) (acc : List α × List (String × List α))
    (a : α) : List α × List (String × List α) :=
  if hasUnderscore (k a) then (acc.1, addToGroup acc.2 (prefixOf (k a)) a)
  else (acc.1 ++ [a], acc.2)

/-- The classification loop (`envVars.forEach(...)`) of
`printAllEnvironmentVariables`, run over the whole input. -/
def classify {α : Type} (k : α → String) (l : List α) :
    List α × List (String × List α) :=
  l.foldl (classifyStep k) ([], [])

/-- One iteration of the second loop (`groupedVars.forEach(...)`): a group
with more than one member contributes its map key to `multipleVarPrefixes`,
otherwise its members are appended to the single-variables list. -/
def splitStep {α : Type} (acc : List String × List α) (e : String × List α) :
    List String × List α :=
  if 1 < e.2.length then (acc.1 ++ [e.1], acc.2) else (acc.1, acc.2 ++ e.2)

/-- The second loop of `printAllEnvironmentVariables`, over the whole map. -/
def splitGroups {α : Type} (groups : List (String × List α)) :
    List String × List α :=
  groups.foldl splitStep ([], [])

/-- Models `groupedVars.get(p)` (`[]` when absent, which never happens for
the keys the program looks up). -/
def lookupG {α : Type} (groups : List (String × List α)) (p : String) : List α :=
  ((groups.find? (fun e => e.1 == p)).map (fun e => e.2)).getD []

/-- The grouped-variables map built by `printAllEnvironmentVariables` for a
given environment. -/
def envGroups (env : List KeyValuePair) : List (String × List KeyValuePair) :=
  (classify KeyValuePair.key (getAllEnvironmentVariables env)).2

/-- The single-variables list just before its final sort: keys without
underscore (in sorted input order) followed by the members of all size-one
groups (in map order). -/
def preSingles (env : List KeyValuePair) : List KeyValuePair :=
  (classify KeyValuePair.key (getAllEnvironmentVariables env)).1 ++
    (splitGroups (envGroups env)).2

/-- Models `multipleVarPrefixes.sort()`: the group names with more than one
member, sorted ascending. -/
def namedPrefixes (env : List KeyValuePair) : List String :=
  sortBy strLe (splitGroups (envGroups env)).1

/-- Models `singleVars.sort((a, b) => a.key.localeCompare(b.key))`: the final
single-variables bucket, sorted with the locale comparator `lc`. -/
def finalSingles (lc : String → String → Bool) (env : List KeyValuePair) :
    List KeyValuePair :=
  sortBy (fun a b => lc a.key b.key) (preSingles env)

/-- The sequence of (title, variables) sections that
`printAllEnvironmentVariables` passes to `printVariablesToScreen`: first the
single-variables bucket under `  Variables (N)`, then one section per
multi-member group name in ascending order. -/
def envSections (lc : String → String → Bool) (env : List KeyValuePair) :
    List (String × List KeyValuePair) :=
  (" Variables (" ++ toString (finalSingles lc env).length ++ ")", finalSingles lc env) ::
    (namedPrefixes env).map (fun p =>
      (" " ++ p ++ " Variables (" ++ toString (lookupG (envGroups env) p).length ++ ")",
        lookupG (envGroups env) p))

/-- One event of the logging sink: `startGroup`, `info`, or `endGroup` from
`@actions/core`. -/
inductive OutputEvent where
  | startGroup (title : String)
  | info (line : String)
  | endGroup
deriving DecidableEq, Repr

/-- Models `vars.reduce((max, {key}) => Math.max(max, key.length), 0)`. -/
def maxKeyLength (vars : List KeyValuePair) : Nat :=
  vars.foldl (fun m kv => max m kv.key.length) 0

/-- The continuation-line indentation `' '.repeat(maxKeyLength + 3)`. -/
def indentStr (maxLen : Nat) : String := String.mk (List.replicate (maxLen + 3) ' ')

/-- The rows printed for one key-value pair by `printVariablesToScreen`: the
padded key, separator and first line of the value, then one indented row per
further line of a multi-line value. -/
def renderPair (maxLen : Nat) (kv : KeyValuePair) : List OutputEvent :=
  let paddedKey := padEnd kv.key maxLen
  if hasNewline kv.value then
    OutputEvent.info (paddedKey ++ " = " ++ (splitOnNl kv.value).headD "") ::
      (splitOnNl kv.value).tail.map (fun line => OutputEvent.info (indentStr maxLen ++ line))
  else [OutputEvent.info (paddedKey ++ " = " ++ kv.value)]

/-- Models `printVariablesToScreen`: nothing for an empty list, otherwise a
foldable region holding one aligned block per pair and a terminating blank
line. -/
def printVariablesToScreen (title : String) (vars : List KeyValuePair) :
    List OutputEvent :=
  if vars.length = 0 then []
  else
    OutputEvent.startGroup title ::
      ((vars.map (renderPair (maxKeyLength vars))).flatten ++
        [OutputEvent.info "", OutputEvent.endGroup])

/-- Models `printAllEnvironmentVariables`: render every section in order. -/
def printAllEnvironmentVariables (lc : String → String → Bool)
    (env : List KeyValuePair) : List OutputEvent :=
  ((envSections lc env).map (fun s => printVariablesToScreen s.1 s.2)).flatten

/-- The runner metadata read by `printRunnerInformation`. -/
structure RunnerState where
  version : String
  platform : String
  arch : String
  cwd : String
deriving DecidableEq, Repr

/-- The fixed `basicInfo` list of `printRunnerInformation`. -/
def runnerPairs (rs : RunnerState) : List KeyValuePair :=
  [⟨"Node.js version", rs.version⟩,
   ⟨"Platform", rs.platform⟩,
   ⟨"Architecture", rs.arch⟩,
   ⟨"Working Directory", rs.cwd⟩]

/-- Models `printRunnerInformation`. -/
def printRunnerInformation (rs : RunnerState) : List OutputEvent :=
  printVariablesToScreen "Runner Information" (runnerPairs rs)

/-- The OS metadata gathered in the non-Windows branch of
`printSystemInformation` (values carried as the strings the program would
format; `cpuModel` is `none` when `os.cpus()[0]?.model` is undefined). -/
structure OsInfo where
  osType : String
  osRelease : String
  osHostname : String
  totalMemGB : String
  freeMemGB : String
  loadAvgJson : String
  cpuCount : Nat
  cpuModel : Option String
deriving DecidableEq, Repr

/-- The process metadata read by `printSystemInformation`.  `osInfo` is the
outcome of gathering the OS extension fields: `Except.error e` models the
`catch` case, with `e = none` for a nullish thrown value. -/
structure SystemState where
  pid : Nat
  ppid : Nat
  getuid : Option Nat
  getgid : Option Nat
  memoryUsageJson : String
  cpuUsageJson : String
  uptime : String
  argvJson : String
  execPath : String
  execArgvJson : String
  platform : String
  osInfo : Except (Option String) OsInfo

/-- Models `process.getuid ? process.getuid().toString() : 'N/A'`. -/
def idString : Option Nat → String
  | some n => toString n
  | none => "N/A"

/-- Models `os.cpus()[0]?.model || 'Unknown'`. -/
def cpuModelString : Option String → String
  | some m => if m = "" then "Unknown" else m
  | none => "Unknown"

/-- Models `error?.toString() || 'Unknown error'`. -/
def osErrorString : Option String → String
  | some s => if s = "" then "Unknown error" else s
  | none => "Unknown error"

/-- The ten entries of the `systemInfo` array built before the OS branch. -/
def baseSystemPairs (st : SystemState) : List KeyValuePair :=
  [⟨"Process ID", toString st.pid⟩,
   ⟨"Parent Process ID", toString st.ppid⟩,
   ⟨"User ID", idString st.getuid⟩,
   ⟨"Group ID", idString st.getgid⟩,
   ⟨"Memory Usage", st.memoryUsageJson⟩,
   ⟨"CPU Usage", st.cpuUsageJson⟩,
   ⟨"Uptime", st.uptime ++ " seconds"⟩,
   ⟨"Command Line Args", st.argvJson⟩,
   ⟨"Node.js Executable Path", st.execPath⟩,
   ⟨"Node.js Execute Arguments", st.execArgvJson⟩]

/-- The eight entries pushed by the successful non-Windows branch. -/
def osEntries (o : OsInfo) : List KeyValuePair :=
  [⟨"OS Type", o.osType⟩,
   ⟨"OS Release", o.osRelease⟩,
   ⟨"OS Hostname", o.osHostname⟩,
   ⟨"OS Total Memory", o.totalMemGB ++ " GB"⟩,
   ⟨"OS Free Memory", o.freeMemGB ++ " GB"⟩,
   ⟨"OS Load Average", o.loadAvgJson⟩,
   ⟨"OS CPU Count", toString o.cpuCount⟩,
   ⟨"OS CPU Model", cpuModelString o.cpuModel⟩]

/-- The `systemInfo` array of `printSystemInformation` after the `if
(process.platform !== 'win32') try ... catch ...` block. -/
def systemInfoPairs (st : SystemState) : List KeyValuePair :=
  if st.platform ≠ "win32" then
    match st.osInfo with
    | Except.ok o => baseSystemPairs st ++ osEntries o
    | Except.error e => baseSystemPairs st ++ [⟨"OS Info Error", osErrorString e⟩]
  else baseSystemPairs st

/-- Models `printSystemInformation`. -/
def printSystemInformation (st : SystemState) : List OutputEvent :=
  printVariablesToScreen "System Information" (systemInfoPairs st)

/-- One stage of `run()`: the events it emits before returning or throwing,
and the thrown error, if any. -/
structure StageResult where
  events : List OutputEvent
  err : Option String

/-- The observable outcome of `run()`: the log output, what was written to
the error channel by `console.error('Error running action:', error)`, and
the process exit status. -/
structure RunOutcome where
  output : List OutputEvent
  errorLog : Option (String × String)
  exitCode : Nat
deriving DecidableEq, Repr

/-- Models `run()`: the three stages in order with an `info('')` separator
after the first and second, wrapped in a single try/catch that logs
`'Error running action:'` with the error and exits with status 1; a run in
which no stage throws falls through and exits with status 0. -/
def runWith (s1 s2 s3 : StageResult) : RunOutcome :=
  match s1.err with
  | some e => ⟨s1.events, some ("Error running action:", e), 1⟩
  | none =>
    match s2.err with
    | some e =>
      ⟨s1.events ++ [OutputEvent.info ""] ++ s2.events, some ("Error running action:", e), 1⟩
    | none =>
      match s3.err with
      | some e =>
        ⟨s1.events ++ [OutputEvent.info ""] ++ s2.events ++ [OutputEvent.info ""] ++ s3.events,
         some ("Error running action:", e), 1⟩
      | none =>
        ⟨s1.events ++ [OutputEvent.info ""] ++ s2.events ++ [OutputEvent.info ""] ++ s3.events,
         none, 0⟩

/-- The whole program on given inputs: the three embedded stages (which, being
pure functions, do not throw). -/
def runProgram (lc : String → String → Bool) (env : List KeyValuePair)
    (rs : RunnerState) (st : SystemState) : RunOutcome :=
  runWith ⟨printRunnerInformation rs, none⟩
    ⟨printAllEnvironmentVariables lc env, none⟩
    ⟨printSystemInformation st, none⟩

/-- The grouping pipeline run on bare keys; used to state that the grouping
depends only on the keys of the environment. -/
def envGroupsK (ks : List String) : List (String × List String) :=
  (classify id (sortBy strLe ks)).2

/-- Key-level counterpart of `preSingles`. -/
def preSinglesK (ks : List String) : List String :=
  (classify id (sortBy strLe ks)).1 ++ (splitGroups (envGroupsK ks)).2

/-- Key-level counterpart of `namedPrefixes`. -/
def namedPrefixesK (ks : List String) : List String :=
  sortBy strLe (splitGroups (envGroupsK ks)).1

/-- Key-level counterpart of `finalSingles`. -/
def finalSinglesK (lc : String → String → Bool) (ks : List String) : List String :=
  sortBy lc (preSinglesK ks)

/-- Key-level counterpart of `envSections`: section titles together with the
key order of each section. -/
def envSectionsK (lc : String → String → Bool) (ks : List String) :
    List (String × List String) :=
  (" Variables (" ++ toString (finalSinglesK lc ks).length ++ ")", finalSinglesK lc ks) ::
    (namedPrefixesK ks).map (fun p =>
      (" " ++ p ++ " Variables (" ++ toString (lookupG (envGroupsK ks) p).length ++ ")",
        lookupG (envGroupsK ks) p))

/-- The value-independent view of the rendered sections: each section's title
and the keys it displays, in order. -/
def sectionsKeyView (lc : String → String → Bool) (env : List KeyValuePair) :
    List (String × List String) :=
  (envSections lc env).map (fun s => (s.1, s.2.map KeyValuePair.key))

/-! Order facts about the code-point comparison. -/

theorem strLtB_irrefl : ∀ as : List Char, strLtB as as = false := by
  intro as
  induction as with
  | nil => rfl
  | cons a t ih => simp [strLtB, lt_irrefl, ih]

theorem strLtB_trans :
    ∀ as bs cs : List Char,
      strLtB as bs = true → strLtB bs cs = true → strLtB as cs = true := by
  intro as
  induction as with
  | nil =>
    intro bs cs h1 h2
    cases bs with
    | nil => exact h2
    | cons b bt =>
      cases cs with
      | nil => simp [strLtB] at h2
      | cons c ct => rfl
  | cons a at' ih =>
    intro bs cs h1 h2
    cases bs with
    | nil => simp [strLtB] at h1
    | cons b bt =>
      cases cs with
      | nil => simp [strLtB] at h2
      | cons c ct =>
        simp only [strLtB] at h1 h2 ⊢
        by_cases hab : a < b
        · by_cases hbc : b < c
          · simp [lt_trans hab hbc]
          · by_cases hcb : c < b
            · simp [hbc, hcb] at h2
            · have hbc' : b = c := le_antisymm (not_lt.mp hcb) (not_lt.mp hbc)
              subst hbc'
              simp [hab]
        · by_cases hba : b < a
          · simp [hab, hba] at h1
          · have hab' : a = b := le_antisymm (not_lt.mp hba) (not_lt.mp hab)
            subst hab'
            simp only [hab, if_neg hab, lt_irrefl, if_neg (lt_irrefl a)] at h1 ⊢
            by_cases hac : a < c
            · simp [hac]
            · by_cases hca : c < a
              · simp [hac, hca] at h2
              · simp only [if_neg hac, if_neg hca] at h2 ⊢
                exact ih bt ct h1 h2

theorem strLtB_trichotomy :
    ∀ as bs : List Char, strLtB as bs = true ∨ strLtB bs as = true ∨ as = bs := by
  intro as
  induction as with
  | nil =>
    intro bs
    cases bs with
    | nil => exact Or.inr (Or.inr rfl)
    | cons b bt => exact Or.inl rfl
  | cons a at' ih =>
    intro bs
    cases bs with
    | nil => exact Or.inr (Or.inl rfl)
    | cons b bt =>
      rcases lt_trichotomy a b with hab | hab | hab
      · exact Or.inl (by simp [strLtB, hab])
      · subst hab
        rcases ih bt with h | h | h
        · exact Or.inl (by simp [strLtB, lt_irrefl, h])
        · exact Or.inr (Or.inl (by simp [strLtB, lt_irrefl, h]))
        · exact Or.inr (Or.inr (by rw [h]))
      · exact Or.inr (Or.inl (by simp [strLtB, hab]))

theorem strLtB_asymm {as bs : List Char} (h : strLtB as bs = true) :
    strLtB bs as = false := by
  cases h2 : strLtB bs as with
  | false => rfl
  | true =>
    have := strLtB_trans as bs as h h2
    rw [strLtB_irrefl] at this
    exact absurd this (by simp)

theorem strLe_eq_true_iff (a b : String) :
    strLe a b = true ↔ strLtB b.toList a.toList = false := by
  unfold strLe
  cases strLtB b.toList a.toList <;> simp

theorem strLe_total (a b : String) : strLe a b = true ∨ strLe b a = true := by
  rcases strLtB_trichotomy a.toList b.toList with h | h | h
  · exact Or.inl ((strLe_eq_true_iff a b).mpr (strLtB_asymm h))
  · exact Or.inr ((strLe_eq_true_iff b a).mpr (strLtB_asymm h))
  · refine Or.inl ((strLe_eq_true_iff a b).mpr ?_)
    rw [← h, strLtB_irrefl]

theorem strLe_trans (a b c : String) (h1 : strLe a b = true) (h2 : strLe b c = true) :
    strLe a c = true := by
  rw [strLe_eq_true_iff] at h1 h2 ⊢
  cases h3 : strLtB c.toList a.toList with
  | false => rfl
  | true =>
    exfalso
    rcases strLtB_trichotomy a.toList b.toList with h | h | h
    · have hcb := strLtB_trans c.toList a.toList b.toList h3 h
      rw [hcb] at h2
      exact Bool.noConfusion h2
    · rw [h] at h1
      exact Bool.noConfusion h1
    · rw [h] at h3
      rw [h3] at h2
      exact Bool.noConfusion h2

theorem strLe_antisymm (a b : String) (h1 : strLe a b = true) (h2 : strLe b a = true) :
    a = b := by
  rw [strLe_eq_true_iff] at h1 h2
  rcases strLtB_trichotomy a.toList b.toList with h | h | h
  · rw [h] at h2
    exact Bool.noConfusion h2
  · rw [h] at h1
    exact Bool.noConfusion h1
  · cases a with
    | mk da =>
      cases b with
      | mk db => exact congrArg String.mk h

/-! Generic facts about the insertion sort used to model the stable
`Array.prototype.sort`. -/

theorem perm_orderedInsert {α : Type} (le : α → α → Bool) (a : α) (l : List α) :
    (orderedInsert le a l).Perm (a :: l) := by
  induction l with
  | nil => exact List.Perm.refl _
  | cons b t ih =>
    by_cases h : le a b = true
    · have he : orderedInsert le a (b :: t) = a :: b :: t := by
        simp [orderedInsert, h]
      rw [he]
    · have he : orderedInsert le a (b :: t) = b :: orderedInsert le a t := by
        simp [orderedInsert, h]
      rw [he]
      exact (ih.cons b).trans (List.Perm.swap a b t)

theorem perm_sortBy {α : Type} (le : α → α → Bool) (l : List α) :
    (sortBy le l).Perm l := by
  induction l with
  | nil => exact List.Perm.refl _
  | cons a t ih => exact (perm_orderedInsert le a (sortBy le t)).trans (ih.cons a)

theorem mem_sortBy {α : Type} {le : α → α → Bool} {a : α} {l : List α} :
    a ∈ sortBy le l ↔ a ∈ l :=
  (perm_sortBy le l).mem_iff

theorem mem_orderedInsert {α : Type} {le : α → α → Bool} {a b : α} {l : List α} :
    b ∈ orderedInsert le a l ↔ b = a ∨ b ∈ l := by
  rw [(perm_orderedInsert le a l).mem_iff, List.mem_cons]

theorem pairwise_orderedInsert {α : Type} (le : α → α → Bool)
    (htot : ∀ a b, le a b = true ∨ le b a = true)
    (htrans : ∀ a b c, le a b = true → le b c = true → le a c = true)
    (a : α) (l : List α) (hl : l.Pairwise (fun x y => le x y = true)) :
    (orderedInsert le a l).Pairwise (fun x y => le x y = true) := by
  induction l with
  | nil => simp [orderedInsert]
  | cons b t ih =>
    rcases List.pairwise_cons.mp hl with ⟨hb, ht⟩
    by_cases h : le a b = true
    · have he : orderedInsert le a (b :: t) = a :: b :: t := by
        simp [orderedInsert, h]
      rw [he]
      refine List.pairwise_cons.mpr ⟨?_, hl⟩
      intro y hy
      rcases List.mem_cons.mp hy with rfl | hy
      · exact h
      · exact htrans a b y h (hb y hy)
    · have he : orderedInsert le a (b :: t) = b :: orderedInsert le a t := by
        simp [orderedInsert, h]
      rw [he]
      refine List.pairwise_cons.mpr ⟨?_, ih ht⟩
      intro y hy
      rcases mem_orderedInsert.mp hy with rfl | hy
      · rcases htot y b with h' | h'
        · exact absurd h' h
        · exact h'
      · exact hb y hy

theorem pairwise_sortBy {α : Type} (le : α → α → Bool)
    (htot : ∀ a b, le a b = true ∨ le b a = true)
    (htrans : ∀ a b c, le a b = true → le b c = true → le a c = true)
    (l : List α) : (sortBy le l).Pairwise (fun x y => le x y = true) := by
  induction l with
  | nil => simp [sortBy]
  | cons a t ih => exact pairwise_orderedInsert le htot htrans a (sortBy le t) ih

theorem map_orderedInsert {α β : Type} (f : α → β) (le₁ : α → α → Bool)
    (le₂ : β → β → Bool) (h : ∀ a b, le₁ a b = le₂ (f a) (f b)) (a : α) (l : List α) :
    (orderedInsert le₁ a l).map f = orderedInsert le₂ (f a) (l.map f) := by
  induction l with
  | nil => rfl
  | cons b t ih =>
    by_cases hc : le₁ a b = true
    · have hc2 : le₂ (f a) (f b) = true := by rw [← h a b]; exact hc
      have h1 : orderedInsert le₁ a (b :: t) = a :: b :: t := by
        simp [orderedInsert, hc]
      have h2 : orderedInsert le₂ (f a) (f b :: t.map f) = f a :: f b :: t.map f := by
        simp [orderedInsert, hc2]
      simp [h1, h2]
    · have hc2 : ¬ le₂ (f a) (f b) = true := by rw [← h a b]; exact hc
      have h1 : orderedInsert le₁ a (b :: t) = b :: orderedInsert le₁ a t := by
        simp [orderedInsert, hc]
      have h2 : orderedInsert le₂ (f a) (f b :: t.map f) =
          f b :: orderedInsert le₂ (f a) (t.map f) := by
        simp [orderedInsert, hc2]
      simp [h1, h2, ih]

theorem map_sortBy {α β : Type} (f : α → β) (le₁ : α → α → Bool) (le₂ : β → β → Bool)
    (h : ∀ a b, le₁ a b = le₂ (f a) (f b)) (l : List α) :
    (sortBy le₁ l).map f = sortBy le₂ (l.map f) := by
  induction l with
  | nil => rfl
  | cons a t ih =>
    simp only [sortBy, List.map_cons, map_orderedInsert f le₁ le₂ h, ih]

/-! Facts about the grouped-variables map. -/

/-- The map keys of a grouped-variables association list, in order. -/
def groupKeys {α : Type} (g : List (String × List α)) : List String :=
  g.map (fun e => e.1)

/-- All members of all groups, in map order. -/
def members {α : Type} (g : List (String × List α)) : List α :=
  (g.map (fun e => e.2)).flatten

/-- The effect of one classification iteration on the grouped-variables map. -/
def gStep {α : Type} (k : α → String) (g : List (String × List α)) (a : α) :
    List (String × List α) :=
  if hasUnderscore (k a) then addToGroup g (prefixOf (k a)) a else g

theorem updGroup_fst {α : Type} (p : String) (a : α) (e : String × List α) :
    (updGroup p a e).1 = e.1 := by
  unfold updGroup
  by_cases h : e.1 == p
  · rw [if_pos h]
  · rw [if_neg h]

theorem classify_foldl {α : Type} (k : α → String) :
    ∀ (l : List α) (s : List α) (g : List (String × List α)),
      l.foldl (classifyStep k) (s, g) =
        (s ++ l.filter (fun a => !(hasUnderscore (k a))), l.foldl (gStep k) g) := by
  intro l
  induction l with
  | nil => intro s g; simp
  | cons a t ih =>
    intro s g
    by_cases h : hasUnderscore (k a) = true
    · have hstep : classifyStep k (s, g) a = (s, addToGroup g (prefixOf (k a)) a) := by
        simp [classifyStep, h]
      have hg : gStep k g a = addToGroup g (prefixOf (k a)) a := by
        simp [gStep, h]
      simp only [List.foldl_cons, hstep, ih, List.filter_cons, h, Bool.not_true, hg]
      simp
    · have hstep : classifyStep k (s, g) a = (s ++ [a], g) := by
        simp [classifyStep, h]
      have hg : gStep k g a = g := by
        simp [gStep, h]
      have hb0 : hasUnderscore (k a) = false := Bool.eq_false_iff.mpr h
      simp only [List.foldl_cons, hstep, ih, List.filter_cons, hb0, hg]
      simp

theorem classify_fst {α : Type} (k : α → String) (l : List α) :
    (classify k l).1 = l.filter (fun a => !(hasUnderscore (k a))) := by
  unfold classify
  rw [classify_foldl k l [] []]
  simp

theorem classify_snd {α : Type} (k : α → String) (l : List α) :
    (classify k l).2 = l.foldl (gStep k) [] := by
  unfold classify
  rw [classify_foldl k l [] []]

theorem lookupG_addToGroup {α : Type} (g : List (String × List α)) (p : String)
    (a : α) (q : String) :
    lookupG (addToGroup g p a) q =
      if q = p then lookupG g q ++ [a] else lookupG g q := by
  unfold addToGroup
  by_cases hhas : g.any (fun e => e.1 == p) = true
  · rw [if_pos hhas]
    unfold lookupG
    have hcomp : (fun e : String × List α => e.1 == q) ∘ updGroup p a =
        (fun e : String × List α => e.1 == q) := by
      funext e
      simp [Function.comp, updGroup_fst]
    rw [List.find?_map, hcomp]
    cases hf : g.find? (fun e => e.1 == q) with
    | none =>
      by_cases hq : q = p
      · subst hq
        rcases List.any_eq_true.mp hhas with ⟨e, he, hep⟩
        have := List.find?_eq_none.mp hf e he
        exact absurd hep this
      · simp [hq]
    | some e =>
      have hq' : e.1 = q := by
        have := List.find?_some hf
        exact eq_of_beq this
      by_cases hq : q = p
      · subst hq
        have hup : updGroup q a e = (e.1, e.2 ++ [a]) := by
          simp [updGroup, hq']
        simp [hup]
      · have hne : ¬ (e.1 == p) = true := by
          rw [hq']
          intro hc
          exact hq (eq_of_beq hc)
        have hup : updGroup p a e = e := by
          unfold updGroup
          rw [if_neg hne]
        simp [hq, hup]
  · rw [if_neg hhas]
    unfold lookupG
    rw [List.find?_append]
    by_cases hq : q = p
    · subst hq
      have hf : g.find? (fun e => e.1 == q) = none := by
        rw [List.find?_eq_none]
        intro x hx
        intro hxq
        exact hhas (List.any_eq_true.mpr ⟨x, hx, hxq⟩)
      rw [hf]
      simp [List.find?]
    · have hf2 : List.find? (fun e : String × List α => e.1 == q) [(p, [a])] = none := by
        have hne : ((p, ([a] : List α)).1 == q) = false := by
          rw [beq_eq_false_iff_ne]
          intro hc
          exact hq hc.symm
        simp [List.find?, hne]
      rw [hf2]
      simp [hq]

theorem groupKeys_addToGroup {α : Type} (g : List (String × List α)) (p : String)
    (a : α) :
    groupKeys (addToGroup g p a) =
      if g.any (fun e => e.1 == p) = true then groupKeys g else groupKeys g ++ [p] := by
  unfold addToGroup groupKeys
  by_cases hhas : g.any (fun e => e.1 == p) = true
  · rw [if_pos hhas, if_pos hhas, List.map_map]
    refine List.map_congr_left ?_
    intro e _
    simp [Function.comp, updGroup_fst]
  · rw [if_neg hhas, if_neg hhas]
    simp

theorem nodup_addToGroup {α : Type} {g : List (String × List α)} (p : String) (a : α)
    (h : (groupKeys g).Nodup) : (groupKeys (addToGroup g p a)).Nodup := by
  rw [groupKeys_addToGroup]
  by_cases hhas : g.any (fun e => e.1 == p) = true
  · rw [if_pos hhas]
    exact h
  · rw [if_neg hhas]
    rw [List.nodup_append]
    refine ⟨h, List.nodup_singleton p, ?_⟩
    intro x hx hxp
    rcases List.mem_singleton.mp hxp with rfl
    rcases List.mem_map.mp hx with ⟨e, he, hep⟩
    exact hhas (List.any_eq_true.mpr ⟨e, he, by simp [hep]⟩)

theorem groupKeys_cons {α : Type} (e : String × List α) (t : List (String × List α)) :
    groupKeys (e :: t) = e.1 :: groupKeys t := rfl

theorem members_cons {α : Type} (e : String × List α) (t : List (String × List α)) :
    members (e :: t) = e.2 ++ members t := by
  simp [members]

theorem members_map_updGroup {α : Type} (p : String) (a : α) :
    ∀ g : List (String × List α), (groupKeys g).Nodup →
      g.any (fun e => e.1 == p) = true →
      (members (g.map (updGroup p a))).Perm (members g ++ [a]) := by
  intro g
  induction g with
  | nil =>
    intro _ hhas
    simp at hhas
  | cons e t ih =>
    intro h hhas
    rw [groupKeys_cons] at h
    rcases List.nodup_cons.mp h with ⟨hnotin, hnd⟩
    by_cases hep : (e.1 == p) = true
    · have hp' : e.1 = p := eq_of_beq hep
      have hup : updGroup p a e = (e.1, e.2 ++ [a]) := by
        simp [updGroup, hep]
      have htid : t.map (updGroup p a) = t := by
        have hid : t.map (updGroup p a) = t.map id := by
          refine List.map_congr_left ?_
          intro x hx
          have hne : ¬ (x.1 == p) = true := by
            intro hc
            apply hnotin
            have hx1 : x.1 = p := eq_of_beq hc
            rw [hp', ← hx1]
            exact List.mem_map.mpr ⟨x, hx, rfl⟩
          unfold updGroup
          rw [if_neg hne]
          rfl
        rw [hid, List.map_id]
      simp only [List.map_cons, htid, hup, members_cons]
      rw [List.append_assoc, List.append_assoc]
      exact List.Perm.append_left e.2 List.perm_append_comm
    · have hup : updGroup p a e = e := by
        simp [updGroup, hep]
      have hany : t.any (fun x => x.1 == p) = true := by
        rcases List.any_eq_true.mp hhas with ⟨x, hx, hxp⟩
        rcases List.mem_cons.mp hx with rfl | hx
        · exact absurd hxp hep
        · exact List.any_eq_true.mpr ⟨x, hx, hxp⟩
      simp only [List.map_cons, hup, members_cons]
      rw [List.append_assoc]
      exact List.Perm.append_left e.2 (ih hnd hany)

theorem members_addToGroup {α : Type} {g : List (String × List α)} (p : String)
    (a : α) (h : (groupKeys g).Nodup) :
    (members (addToGroup g p a)).Perm (members g ++ [a]) := by
  unfold addToGroup
  by_cases hhas : g.any (fun e => e.1 == p) = true
  · rw [if_pos hhas]
    exact members_map_updGroup p a g h hhas
  · rw [if_neg hhas]
    have he : members (g ++ [(p, [a])]) = members g ++ [a] := by
      simp [members]
    rw [he]

theorem lookupG_foldl {α : Type} (k : α → String) (q : String) :
    ∀ (l : List α) (g : List (String × List α)),
      lookupG (l.foldl (gStep k) g) q =
        lookupG g q ++ l.filter (fun a => hasUnderscore (k a) && (prefixOf (k a) == q)) := by
  intro l
  induction l with
  | nil =>
    intro g
    simp
  | cons a t ih =>
    intro g
    by_cases hU : hasUnderscore (k a) = true
    · have hg : gStep k g a = addToGroup g (prefixOf (k a)) a := by
        simp [gStep, hU]
      rw [List.foldl_cons, hg, ih, lookupG_addToGroup]
      by_cases hq : q = prefixOf (k a)
      · rw [if_pos hq]
        have hcond : (a :: t).filter (fun x => hasUnderscore (k x) && (prefixOf (k x) == q)) =
            a :: t.filter (fun x => hasUnderscore (k x) && (prefixOf (k x) == q)) := by
          have : (hasUnderscore (k a) && (prefixOf (k a) == q)) = true := by
            rw [hU, ← hq]
            simp
          simp [List.filter_cons, this]
        rw [hcond]
        simp
      · rw [if_neg hq]
        have hcond : (a :: t).filter (fun x => hasUnderscore (k x) && (prefixOf (k x) == q)) =
            t.filter (fun x => hasUnderscore (k x) && (prefixOf (k x) == q)) := by
          have : (hasUnderscore (k a) && (prefixOf (k a) == q)) = false := by
            rw [hU, Bool.true_and, beq_eq_false_iff_ne]
            intro hc
            exact hq hc.symm
          simp [List.filter_cons, this]
        rw [hcond]
    · have hg : gStep k g a = g := by
        simp [gStep, hU]
      have hU0 : hasUnderscore (k a) = false := Bool.eq_false_iff.mpr hU
      have hcond : (a :: t).filter (fun x => hasUnderscore (k x) && (prefixOf (k x) == q)) =
          t.filter (fun x => hasUnderscore (k x) && (prefixOf (k x) == q)) := by
        simp [List.filter_cons, hU0]
      rw [List.foldl_cons, hg, ih, hcond]

theorem nodup_foldl_gStep {α : Type} (k : α → String) :
    ∀ (l : List α) (g : List (String × List α)), (groupKeys g).Nodup →
      (groupKeys (l.foldl (gStep k) g)).Nodup := by
  intro l
  induction l with
  | nil =>
    intro g h
    exact h
  | cons a t ih =>
    intro g h
    rw [List.foldl_cons]
    apply ih
    unfold gStep
    by_cases hU : hasUnderscore (k a) = true
    · rw [if_pos hU]
      exact nodup_addToGroup _ _ h
    · rw [if_neg hU]
      exact h

theorem members_foldl_gStep {α : Type} (k : α → String) :
    ∀ (l : List α) (g : List (String × List α)), (groupKeys g).Nodup →
      (members (l.foldl (gStep k) g)).Perm
        (members g ++ l.filter (fun a => hasUnderscore (k a))) := by
  intro l
  induction l with
  | nil =>
    intro g h
    simp
  | cons a t ih =>
    intro g h
    by_cases hU : hasUnderscore (k a) = true
    · have hg : gStep k g a = addToGroup g (prefixOf (k a)) a := by
        simp [gStep, hU]
      have hfc : (a :: t).filter (fun x => hasUnderscore (k x)) =
          a :: t.filter (fun x => hasUnderscore (k x)) := by
        simp [List.filter_cons, hU]
      rw [List.foldl_cons, hg, hfc]
      have h2 := ih (addToGroup g (prefixOf (k a)) a) (nodup_addToGroup _ _ h)
      refine h2.trans ?_
      refine ((members_addToGroup _ _ h).append_right _).trans ?_
      simp [List.append_assoc]
    · have hg : gStep k g a = g := by
        simp [gStep, hU]
      have hU0 : hasUnderscore (k a) = false := Bool.eq_false_iff.mpr hU
      have hfc : (a :: t).filter (fun x => hasUnderscore (k x)) =
          t.filter (fun x => hasUnderscore (k x)) := by
        simp [List.filter_cons, hU0]
      rw [List.foldl_cons, hg, hfc]
      exact ih g h

theorem find?_group_of_mem {α : Type} (p : String) :
    ∀ (g : List (String × List α)) (e : String × List α),
      (groupKeys g).Nodup → e ∈ g → e.1 = p →
      g.find? (fun x => x.1 == p) = some e := by
  intro g
  induction g with
  | nil =>
    intro e _ he _
    cases he
  | cons f t ih =>
    intro e h he hp
    rw [groupKeys_cons] at h
    rcases List.nodup_cons.mp h with ⟨hnotin, hnd⟩
    rcases List.mem_cons.mp he with rfl | he
    · exact List.find?_cons_of_pos t (by rw [hp]; simp)
    · have hfp : ¬ (f.1 == p) = true := by
        intro hc
        apply hnotin
        rw [eq_of_beq hc, ← hp]
        exact List.mem_map.mpr ⟨e, he, rfl⟩
      rw [List.find?_cons_of_neg t hfp]
      exact ih e hnd he hp

theorem lookupG_of_find? {α : Type} {g : List (String × List α)} {p : String}
    {e : String × List α} (hf : g.find? (fun x => x.1 == p) = some e) :
    lookupG g p = e.2 := by
  unfold lookupG
  rw [hf]
  rfl

theorem splitGroups_foldl {α : Type} :
    ∀ (g : List (String × List α)) (ps : List String) (ex : List α),
      g.foldl splitStep (ps, ex) =
        (ps ++ (g.filter (fun e => decide (1 < e.2.length))).map (fun e => e.1),
          ex ++ ((g.filter (fun e => !decide (1 < e.2.length))).map (fun e => e.2)).flatten) := by
  intro g
  induction g with
  | nil =>
    intro ps ex
    simp
  | cons e t ih =>
    intro ps ex
    by_cases h : 1 < e.2.length
    · have hs : splitStep (ps, ex) e = (ps ++ [e.1], ex) := by
        simp [splitStep, h]
      have hd : decide (1 < e.2.length) = true := by
        simp [h]
      rw [List.foldl_cons, hs, ih, List.filter_cons, List.filter_cons, hd]
      simp
    · have hs : splitStep (ps, ex) e = (ps, ex ++ e.2) := by
        simp [splitStep, h]
      have hd : decide (1 < e.2.length) = false := by
        simp [h]
      rw [List.foldl_cons, hs, ih, List.filter_cons, List.filter_cons, hd]
      simp

theorem splitGroups_fst {α : Type} (g : List (String × List α)) :
    (splitGroups g).1 = (g.filter (fun e => decide (1 < e.2.length))).map (fun e => e.1) := by
  unfold splitGroups
  rw [splitGroups_foldl]
  simp

theorem splitGroups_snd {α : Type} (g : List (String × List α)) :
    (splitGroups g).2 =
      ((g.filter (fun e => !decide (1 < e.2.length))).map (fun e => e.2)).flatten := by
  unfold splitGroups
  rw [splitGroups_foldl]
  simp

theorem sortBy_eq_of_perm {α : Type} (le : α → α → Bool)
    (htot : ∀ a b, le a b = true ∨ le b a = true)
    (htrans : ∀ a b c, le a b = true → le b c = true → le a c = true)
    (hanti : ∀ a b, le a b = true → le b a = true → a = b)
    {l₁ l₂ : List α} (h : l₁.Perm l₂) : sortBy le l₁ = sortBy le l₂ := by
  haveI : IsAntisymm α (fun x y => le x y = true) := ⟨hanti⟩
  exact List.eq_of_perm_of_sorted
    ((perm_sortBy le l₁).trans (h.trans (perm_sortBy le l₂).symm))
    (pairwise_sortBy le htot htrans l₁)
    (pairwise_sortBy le htot htrans l₂)

/-! Program-level consequences for the environment-variable pipeline. -/

theorem envGroups_def (env : List KeyValuePair) :
    envGroups env = (getAllEnvironmentVariables env).foldl (gStep KeyValuePair.key) [] := by
  unfold envGroups
  rw [classify_snd]

theorem nodup_envGroups (env : List KeyValuePair) :
    (groupKeys (envGroups env)).Nodup := by
  rw [envGroups_def]
  exact nodup_foldl_gStep _ _ [] (by simp [groupKeys])

theorem lookupG_envGroups (env : List KeyValuePair) (q : String) :
    lookupG (envGroups env) q =
      (getAllEnvironmentVariables env).filter
        (fun kv => hasUnderscore kv.key && (prefixOf kv.key == q)) := by
  rw [envGroups_def, lookupG_foldl]
  simp [lookupG]

theorem members_envGroups (env : List KeyValuePair) :
    (members (envGroups env)).Perm
      ((getAllEnvironmentVariables env).filter (fun kv => hasUnderscore kv.key)) := by
  rw [envGroups_def]
  have h := members_foldl_gStep KeyValuePair.key (getAllEnvironmentVariables env) []
    (by simp [groupKeys])
  simpa [members] using h

theorem pre_plus_high_perm (env : List KeyValuePair) :
    (preSingles env ++
        (((envGroups env).filter (fun e => decide (1 < e.2.length))).map
          (fun e => e.2)).flatten).Perm env := by
  unfold preSingles
  rw [classify_fst, splitGroups_snd, List.append_assoc]
  have h1 : (((((envGroups env).filter (fun e => !decide (1 < e.2.length))).map
        (fun e => e.2)).flatten) ++
      ((((envGroups env).filter (fun e => decide (1 < e.2.length))).map
        (fun e => e.2)).flatten)).Perm (members (envGroups env)) := by
    have hp3 := List.Perm.flatten
      ((List.filter_append_perm
        (fun e : String × List KeyValuePair => decide (1 < e.2.length))
        (envGroups env)).map (fun e => e.2))
    rw [List.map_append, List.flatten_append] at hp3
    exact List.perm_append_comm.trans hp3
  refine (List.Perm.append_left _ h1).trans ?_
  refine (List.Perm.append_left _ (members_envGroups env)).trans ?_
  refine (List.perm_append_comm.trans ?_)
  refine (List.filter_append_perm (fun kv => hasUnderscore kv.key)
    (getAllEnvironmentVariables env)).trans ?_
  exact perm_sortBy keyLe env

theorem named_flatten_perm (env : List KeyValuePair) :
    (((namedPrefixes env).map (fun p => lookupG (envGroups env) p)).flatten).Perm
      ((((envGroups env).filter (fun e => decide (1 < e.2.length))).map
        (fun e => e.2)).flatten) := by
  have h0 : (namedPrefixes env).Perm (splitGroups (envGroups env)).1 :=
    perm_sortBy strLe _
  have h1 := List.Perm.flatten (h0.map (fun p => lookupG (envGroups env) p))
  refine h1.trans ?_
  rw [splitGroups_fst, List.map_map]
  have h2 : ((envGroups env).filter (fun e => decide (1 < e.2.length))).map
        ((fun p => lookupG (envGroups env) p) ∘ (fun e => e.1)) =
      ((envGroups env).filter (fun e => decide (1 < e.2.length))).map (fun e => e.2) := by
    refine List.map_congr_left ?_
    intro e he
    have heG : e ∈ envGroups env := (List.mem_filter.mp he).1
    have hf := find?_group_of_mem e.1 (envGroups env) e (nodup_envGroups env) heG rfl
    show lookupG (envGroups env) e.1 = e.2
    exact lookupG_of_find? hf
  rw [h2]

theorem sections_flatten_eq (lc : String → String → Bool) (env : List KeyValuePair) :
    ((envSections lc env).map (fun s => s.2)).flatten =
      finalSingles lc env ++
        ((namedPrefixes env).map (fun p => lookupG (envGroups env) p)).flatten := by
  unfold envSections
  simp only [List.map_cons, List.map_map, List.flatten_cons]
  congr 2

theorem mem_lookupG_envGroups {env : List KeyValuePair} {kv : KeyValuePair}
    (hkv : kv ∈ env) (hU : hasUnderscore kv.key = true) :
    kv ∈ lookupG (envGroups env) (prefixOf kv.key) := by
  rw [lookupG_envGroups]
  refine List.mem_filter.mpr ⟨(mem_sortBy).mpr hkv, ?_⟩
  simp [hU]

theorem lookupG_length (env : List KeyValuePair) (p : String) :
    (lookupG (envGroups env) p).length =
      (env.filter (fun kv => hasUnderscore kv.key && (prefixOf kv.key == p))).length := by
  rw [lookupG_envGroups]
  exact ((perm_sortBy keyLe env).filter _).length_eq

/-- C1: for every locale comparator and every input environment, the
concatenation of the contents of all sections produced by the grouping step
(the single-variables bucket followed by the members of all named sections)
is a permutation of the input pairs; in particular, when the input keys are
distinct, every key appears exactly once across the final output. -/
theorem c1_partition (lc : String → String → Bool) (env : List KeyValuePair) :
    (((envSections lc env).map (fun s => s.2)).flatten).Perm env ∧
      ((env.map (fun kv => kv.key)).Nodup →
        ((((envSections lc env).map (fun s => s.2)).flatten).map
          (fun kv => kv.key)).Nodup) := by
  have hmain : (((envSections lc env).map (fun s => s.2)).flatten).Perm env := by
    rw [sections_flatten_eq]
    refine (List.Perm.append ?_ ?_).trans (pre_plus_high_perm env)
    · exact perm_sortBy _ _
    · exact named_flatten_perm env
  refine ⟨hmain, ?_⟩
  intro hnd
  exact ((hmain.map (fun kv => kv.key)).nodup_iff).mpr hnd

theorem c1_partition_witness :
    ((([⟨"HOME", "/root"⟩, ⟨"GITHUB_SHA", "abc123"⟩, ⟨"GITHUB_ACTOR", "bob"⟩,
        ⟨"PATH", "/bin"⟩] : List KeyValuePair).map (fun kv => kv.key)).Nodup) ∧
      ((((envSections strLe [⟨"HOME", "/root"⟩, ⟨"GITHUB_SHA", "abc123"⟩,
          ⟨"GITHUB_ACTOR", "bob"⟩, ⟨"PATH", "/bin"⟩]).map (fun s => s.2)).flatten).map
        (fun kv => kv.key)).Nodup :=
  ⟨by decide,
    (c1_partition strLe [⟨"HOME", "/root"⟩, ⟨"GITHUB_SHA", "abc123"⟩,
      ⟨"GITHUB_ACTOR", "bob"⟩, ⟨"PATH", "/bin"⟩]).2 (by decide)⟩

/-- C2: a named section for a group name `p` appears exactly when at least two
input pairs have an underscore in their key and first component `p`; and when
exactly one pair has that first component, that pair lands in the
single-variables bucket. -/
theorem c2_threshold (lc : String → String → Bool) (env : List KeyValuePair)
    (p : String) :
    (p ∈ namedPrefixes env ↔
        2 ≤ (env.filter (fun kv => hasUnderscore kv.key &&
          (prefixOf kv.key == p))).length) ∧
      ((env.filter (fun kv => hasUnderscore kv.key &&
          (prefixOf kv.key == p))).length = 1 →
        ∀ kv ∈ env, hasUnderscore kv.key = true → prefixOf kv.key = p →
          kv ∈ finalSingles lc env) := by
  constructor
  · constructor
    · intro hp
      rw [← lookupG_length]
      have hp1 : p ∈ (splitGroups (envGroups env)).1 := mem_sortBy.mp hp
      rw [splitGroups_fst] at hp1
      rcases List.mem_map.mp hp1 with ⟨e, he, hep⟩
      have heG : e ∈ envGroups env := (List.mem_filter.mp he).1
      have hlen : decide (1 < e.2.length) = true := (List.mem_filter.mp he).2
      have hf := find?_group_of_mem p (envGroups env) e (nodup_envGroups env) heG hep
      rw [lookupG_of_find? hf]
      exact of_decide_eq_true hlen
    · intro hlen
      rw [← lookupG_length] at hlen
      cases hf : (envGroups env).find? (fun x => x.1 == p) with
      | none =>
        exfalso
        have h0 : lookupG (envGroups env) p = [] := by
          unfold lookupG
          rw [hf]
          rfl
        rw [h0] at hlen
        simp at hlen
      | some e =>
        have he1 : e.1 = p := by
          have hs := List.find?_some hf
          simp at hs
          exact hs
        have heG := List.mem_of_find?_eq_some hf
        have hl2 : lookupG (envGroups env) p = e.2 := lookupG_of_find? hf
        apply mem_sortBy.mpr
        rw [splitGroups_fst]
        refine List.mem_map.mpr ⟨e, ?_, he1⟩
        refine List.mem_filter.mpr ⟨heG, ?_⟩
        rw [hl2] at hlen
        simp
        exact hlen
  · intro hlen kv hkv hU hpre
    unfold finalSingles
    apply mem_sortBy.mpr
    unfold preSingles
    apply List.mem_append.mpr
    right
    rw [splitGroups_snd]
    have hkvl : kv ∈ lookupG (envGroups env) p := by
      rw [← hpre]
      exact mem_lookupG_envGroups hkv hU
    have hlen' : (lookupG (envGroups env) p).length = 1 := by
      rw [lookupG_length]
      exact hlen
    cases hf : (envGroups env).find? (fun x => x.1 == p) with
    | none =>
      exfalso
      have h0 : lookupG (envGroups env) p = [] := by
        unfold lookupG
        rw [hf]
        rfl
      rw [h0] at hkvl
      cases hkvl
    | some e =>
      have hl2 : lookupG (envGroups env) p = e.2 := lookupG_of_find? hf
      have heG := List.mem_of_find?_eq_some hf
      refine List.mem_flatten.mpr ⟨e.2, ?_, by rw [← hl2]; exact hkvl⟩
      refine List.mem_map.mpr ⟨e, ?_, rfl⟩
      refine List.mem_filter.mpr ⟨heG, ?_⟩
      rw [hl2] at hlen'
      simp [hlen']

theorem c2_threshold_witness :
    (([⟨"HOME", "/root"⟩, ⟨"NPM_TOKEN", "x"⟩] : List KeyValuePair).filter
        (fun kv => hasUnderscore kv.key && (prefixOf kv.key == "NPM"))).length = 1 ∧
      (⟨"NPM_TOKEN", "x"⟩ : KeyValuePair) ∈
        finalSingles strLe [⟨"HOME", "/root"⟩, ⟨"NPM_TOKEN", "x"⟩] :=
  ⟨by decide,
    (c2_threshold strLe [⟨"HOME", "/root"⟩, ⟨"NPM_TOKEN", "x"⟩] "NPM").2 (by decide)
      ⟨"NPM_TOKEN", "x"⟩ (by decide) (by decide) (by decide)⟩

/-- C4: the single-variables bucket is the first section and its title carries
the live member count; the remaining sections are exactly the named group
sections, whose group names are sorted ascending; in the emitted event
stream the bucket's rendering precedes the renderings of all named
sections. -/
theorem c4_section_order (lc : String → String → Bool) (env : List KeyValuePair) :
    (envSections lc env).head? =
        some (" Variables (" ++ toString (finalSingles lc env).length ++ ")",
          finalSingles lc env) ∧
      List.Pairwise (fun a b => strLe a b = true) (namedPrefixes env) ∧
      (∀ s ∈ (envSections lc env).tail, ∃ p ∈ namedPrefixes env,
        s = (" " ++ p ++ " Variables (" ++
            toString (lookupG (envGroups env) p).length ++ ")",
          lookupG (envGroups env) p)) ∧
      printAllEnvironmentVariables lc env =
        printVariablesToScreen
            (" Variables (" ++ toString (finalSingles lc env).length ++ ")")
            (finalSingles lc env) ++
          ((namedPrefixes env).map (fun p => printVariablesToScreen
            (" " ++ p ++ " Variables (" ++
              toString (lookupG (envGroups env) p).length ++ ")")
            (lookupG (envGroups env) p))).flatten := by
  refine ⟨rfl, pairwise_sortBy strLe strLe_total strLe_trans _, ?_, ?_⟩
  · intro s hs
    rcases List.mem_map.mp hs with ⟨p, hp, hsp⟩
    exact ⟨p, hp, hsp.symm⟩
  · unfold printAllEnvironmentVariables envSections
    simp only [List.map_cons, List.map_map, List.flatten_cons]
    congr 2

theorem c4_section_order_witness :
    ∃ p ∈ namedPrefixes
        ([⟨"B_C", "1"⟩, ⟨"B_D", "2"⟩, ⟨"A", "0"⟩] : List KeyValuePair),
      ((" B Variables (2)", ([⟨"B_C", "1"⟩, ⟨"B_D", "2"⟩] : List KeyValuePair)) :
          String × List KeyValuePair) =
        (" " ++ p ++ " Variables (" ++
            toString (lookupG (envGroups
              ([⟨"B_C", "1"⟩, ⟨"B_D", "2"⟩, ⟨"A", "0"⟩] : List KeyValuePair)) p).length
            ++ ")",
          lookupG (envGroups
            ([⟨"B_C", "1"⟩, ⟨"B_D", "2"⟩, ⟨"A", "0"⟩] : List KeyValuePair)) p) :=
  (c4_section_order strLe [⟨"B_C", "1"⟩, ⟨"B_D", "2"⟩, ⟨"A", "0"⟩]).2.2.1
    (" B Variables (2)", [⟨"B_C", "1"⟩, ⟨"B_D", "2"⟩]) (by decide)

/-- C3 counterexample: `localeCompare` is locale-sensitive and the source fixes
no locale; with the reversed code-point comparison — which is a conforming
comparison: total, transitive and antisymmetric, as the first three conjuncts
record — the finalized single-variables bucket for the environment with keys
`A`, `B` is not sorted in code-point order.  The code-point claim therefore
does not follow from the code, which sorts the bucket with `localeCompare`
rather than with the collector's code-point comparison. -/
theorem c3_counterexample :
    (∀ a b : String, strLe b a = true ∨ strLe a b = true) ∧
      (∀ a b c : String, strLe b a = true → strLe c b = true → strLe c a = true) ∧
      (∀ a b : String, strLe b a = true → strLe a b = true → a = b) ∧
      ¬ List.Pairwise (fun a b : KeyValuePair => strLe a.key b.key = true)
        (finalSingles (fun a b => strLe b a) [⟨"A", ""⟩, ⟨"B", ""⟩]) :=
  ⟨fun a b => strLe_total b a,
    fun a b c h1 h2 => strLe_trans c b a h2 h1,
    fun a b h1 h2 => strLe_antisymm a b h2 h1,
    by decide⟩

/-- C3 (amended): the finalized single-variables bucket is sorted ascending by
key with respect to the locale comparison `lc` actually used by the final
sort (for any total and transitive `lc`, which conforming `localeCompare`
comparisons are); the sort is strict when `lc` is antisymmetric and the input
keys are distinct.  Sortedness in code-point order holds exactly when the
runtime's `localeCompare` ordering coincides with the code-point ordering. -/
theorem c3_sorted_by_locale (lc : String → String → Bool)
    (htot : ∀ a b, lc a b = true ∨ lc b a = true)
    (htrans : ∀ a b c, lc a b = true → lc b c = true → lc a c = true)
    (env : List KeyValuePair) :
    List.Pairwise (fun a b : KeyValuePair => lc a.key b.key = true)
        (finalSingles lc env) ∧
      ((∀ a b, lc a b = true → lc b a = true → a = b) →
        (env.map (fun kv => kv.key)).Nodup →
        List.Pairwise (fun a b : KeyValuePair =>
          lc a.key b.key = true ∧ a.key ≠ b.key) (finalSingles lc env)) := by
  have hsort : List.Pairwise (fun a b : KeyValuePair => lc a.key b.key = true)
      (finalSingles lc env) := by
    unfold finalSingles
    refine pairwise_sortBy _ ?_ ?_ _
    · intro a b
      exact htot a.key b.key
    · intro a b c h1 h2
      exact htrans a.key b.key c.key h1 h2
  refine ⟨hsort, ?_⟩
  intro _ hnd
  have h1 : ((preSingles env ++
      (((envGroups env).filter (fun e => decide (1 < e.2.length))).map
        (fun e => e.2)).flatten).map (fun kv => kv.key)).Nodup :=
    (((pre_plus_high_perm env).map (fun kv => kv.key)).nodup_iff).mpr hnd
  rw [List.map_append] at h1
  have h2 : ((preSingles env).map (fun kv => kv.key)).Nodup :=
    (List.nodup_append.mp h1).1
  have hperm : (finalSingles lc env).Perm (preSingles env) := perm_sortBy _ _
  have h3 : ((finalSingles lc env).map (fun kv => kv.key)).Nodup :=
    ((hperm.map (fun kv => kv.key)).nodup_iff).mpr h2
  have h4 : List.Pairwise (fun a b : KeyValuePair => a.key ≠ b.key)
      (finalSingles lc env) := List.pairwise_map.mp h3
  exact hsort.and h4

theorem c3_sorted_by_locale_witness :
    ((([⟨"B", "1"⟩, ⟨"A", "0"⟩] : List KeyValuePair).map (fun kv => kv.key)).Nodup) ∧
      List.Pairwise (fun a b : KeyValuePair =>
          strLe a.key b.key = true ∧ a.key ≠ b.key)
        (finalSingles strLe [⟨"B", "1"⟩, ⟨"A", "0"⟩]) :=
  ⟨by decide,
    (c3_sorted_by_locale strLe strLe_total strLe_trans
      [⟨"B", "1"⟩, ⟨"A", "0"⟩]).2 strLe_antisymm (by decide)⟩

/-! Facts about the rendering routine. -/

theorem init_le_foldl_max : ∀ (l : List KeyValuePair) (init : Nat),
    init ≤ l.foldl (fun m x => max m x.key.length) init := by
  intro l
  induction l with
  | nil =>
    intro init
    exact le_refl init
  | cons a t ih =>
    intro init
    rw [List.foldl_cons]
    exact le_trans (le_max_left init a.key.length) (ih (max init a.key.length))

theorem le_foldl_max : ∀ (l : List KeyValuePair) (init : Nat) (kv : KeyValuePair),
    kv ∈ l → kv.key.length ≤ l.foldl (fun m x => max m x.key.length) init := by
  intro l
  induction l with
  | nil =>
    intro init kv h
    cases h
  | cons a t ih =>
    intro init kv h
    rw [List.foldl_cons]
    rcases List.mem_cons.mp h with rfl | h
    · exact le_trans (le_max_right init kv.key.length)
        (init_le_foldl_max t (max init kv.key.length))
    · exact ih (max init a.key.length) kv h

theorem le_maxKeyLength {vars : List KeyValuePair} {kv : KeyValuePair}
    (h : kv ∈ vars) : kv.key.length ≤ maxKeyLength vars :=
  le_foldl_max vars 0 kv h

theorem padEnd_length {s : String} {n : Nat} (h : s.length ≤ n) :
    (padEnd s n).length = n := by
  unfold padEnd
  rw [String.length_append]
  have h2 : (String.mk (List.replicate (n - s.length) ' ')).length = n - s.length := by
    show (List.replicate (n - s.length) ' ').length = n - s.length
    simp
  rw [h2]
  omega

theorem mk_toList (s : String) : String.mk s.toList = s := by
  cases s with
  | mk d => rfl

theorem splitLinesAux_no_newline :
    ∀ l : List Char, l.contains '\n' = false → splitLinesAux l = (l, []) := by
  intro l
  induction l with
  | nil =>
    intro _
    rfl
  | cons c t ih =>
    intro h
    rw [List.contains_cons, Bool.or_eq_false_iff] at h
    have hc : ¬ c = '\n' := by
      intro hcc
      rw [hcc] at h
      simp at h
    have ht := ih h.2
    simp [splitLinesAux, hc, ht]

theorem splitOnNl_no_newline {s : String} (h : hasNewline s = false) :
    splitOnNl s = [s] := by
  unfold splitOnNl
  rw [splitLinesAux_no_newline s.toList h]
  simp [mk_toList]

theorem head_renderPair_mem (title : String) (vars : List KeyValuePair)
    (kv : KeyValuePair) (hmem : kv ∈ vars) (r : OutputEvent)
    (rest : List OutputEvent)
    (h : renderPair (maxKeyLength vars) kv = r :: rest) :
    r ∈ printVariablesToScreen title vars := by
  unfold printVariablesToScreen
  have hne : ¬ vars.length = 0 := by
    intro h0
    rw [List.length_eq_zero] at h0
    subst h0
    cases hmem
  rw [if_neg hne]
  apply List.mem_cons_of_mem
  apply List.mem_append_left
  apply List.mem_flatten.mpr
  refine ⟨renderPair (maxKeyLength vars) kv, List.mem_map.mpr ⟨kv, hmem, rfl⟩, ?_⟩
  rw [h]
  exact List.mem_cons_self _ _

theorem firstRow_toList (kv : KeyValuePair) (n : Nat) :
    (padEnd kv.key n ++ " = " ++ (splitOnNl kv.value).headD "").toList =
      (padEnd kv.key n).toList ++
        (' ' :: '=' :: ' ' :: ((splitOnNl kv.value).headD "").toList) := by
  show (padEnd kv.key n ++ " = " ++ (splitOnNl kv.value).headD "").data = _
  rw [String.data_append, String.data_append, List.append_assoc]
  rfl

/-- C5: every key row of a rendered section is the key padded with spaces to
the section's maximum key length, the separator " = ", and the first line of
the value; the padded key occupies exactly maxKeyLength characters, so the
'=' of every row sits at character position maxKeyLength + 1, and the row is
part of the section's output. -/
theorem c5_alignment (title : String) (vars : List KeyValuePair)
    (kv : KeyValuePair) (hmem : kv ∈ vars) :
    ∃ rest : List OutputEvent,
      renderPair (maxKeyLength vars) kv =
          OutputEvent.info (padEnd kv.key (maxKeyLength vars) ++ " = " ++
            (splitOnNl kv.value).headD "") :: rest ∧
        (padEnd kv.key (maxKeyLength vars)).length = maxKeyLength vars ∧
        (padEnd kv.key (maxKeyLength vars) ++ " = " ++
            (splitOnNl kv.value).headD "").toList[maxKeyLength vars + 1]? =
          some '=' ∧
        OutputEvent.info (padEnd kv.key (maxKeyLength vars) ++ " = " ++
          (splitOnNl kv.value).headD "") ∈ printVariablesToScreen title vars := by
  have hpadlen : (padEnd kv.key (maxKeyLength vars)).length = maxKeyLength vars :=
    padEnd_length (le_maxKeyLength hmem)
  have hlen : (padEnd kv.key (maxKeyLength vars)).toList.length = maxKeyLength vars :=
    hpadlen
  have hpos : (padEnd kv.key (maxKeyLength vars) ++ " = " ++
      (splitOnNl kv.value).headD "").toList[maxKeyLength vars + 1]? = some '=' := by
    rw [firstRow_toList]
    rw [List.getElem?_append_right (by rw [hlen]; omega), hlen]
    have hidx : maxKeyLength vars + 1 - maxKeyLength vars = 1 := by omega
    rw [hidx]
    rfl
  by_cases hnl : hasNewline kv.value = true
  · have hdef : renderPair (maxKeyLength vars) kv =
        OutputEvent.info (padEnd kv.key (maxKeyLength vars) ++ " = " ++
          (splitOnNl kv.value).headD "") ::
          (splitOnNl kv.value).tail.map (fun line =>
            OutputEvent.info (indentStr (maxKeyLength vars) ++ line)) := by
      simp [renderPair, hnl]
    exact ⟨_, hdef, hpadlen, hpos,
      head_renderPair_mem title vars kv hmem _ _ hdef⟩
  · have hnl0 : hasNewline kv.value = false := Bool.eq_false_iff.mpr hnl
    have hsp : splitOnNl kv.value = [kv.value] := splitOnNl_no_newline hnl0
    have hdef : renderPair (maxKeyLength vars) kv =
        OutputEvent.info (padEnd kv.key (maxKeyLength vars) ++ " = " ++
          (splitOnNl kv.value).headD "") :: [] := by
      simp [renderPair, hnl0, hsp]
    exact ⟨_, hdef, hpadlen, hpos,
      head_renderPair_mem title vars kv hmem _ _ hdef⟩

theorem c5_alignment_witness :
    (⟨"X", "7"⟩ : KeyValuePair) ∈
        ([⟨"LONGKEY", "1"⟩, ⟨"X", "7"⟩] : List KeyValuePair) ∧
      ∃ rest : List OutputEvent,
        renderPair (maxKeyLength [⟨"LONGKEY", "1"⟩, ⟨"X", "7"⟩]) ⟨"X", "7"⟩ =
            OutputEvent.info (padEnd "X"
                (maxKeyLength [⟨"LONGKEY", "1"⟩, ⟨"X", "7"⟩]) ++ " = " ++
              (splitOnNl "7").headD "") :: rest ∧
          (padEnd "X" (maxKeyLength [⟨"LONGKEY", "1"⟩, ⟨"X", "7"⟩])).length =
            maxKeyLength [⟨"LONGKEY", "1"⟩, ⟨"X", "7"⟩] ∧
          (padEnd "X" (maxKeyLength [⟨"LONGKEY", "1"⟩, ⟨"X", "7"⟩]) ++ " = " ++
              (splitOnNl "7").headD
                "").toList[maxKeyLength [⟨"LONGKEY", "1"⟩, ⟨"X", "7"⟩] + 1]? =
            some '=' ∧
          OutputEvent.info (padEnd "X"
              (maxKeyLength [⟨"LONGKEY", "1"⟩, ⟨"X", "7"⟩]) ++ " = " ++
            (splitOnNl "7").headD "") ∈
            printVariablesToScreen "T" [⟨"LONGKEY", "1"⟩, ⟨"X", "7"⟩] :=
  ⟨by decide, c5_alignment "T" [⟨"LONGKEY", "1"⟩, ⟨"X", "7"⟩] ⟨"X", "7"⟩ (by decide)⟩

/-- C6: a value containing a newline renders as one row per line of the split
value: the first row holds the padded key, separator and first line; every
continuation row is exactly maxKeyLength + 3 spaces followed by its line, so
the indent region holds no '=' separator. -/
theorem c6_multiline (vars : List KeyValuePair) (kv : KeyValuePair)
    (_hmem : kv ∈ vars) (hnl : hasNewline kv.value = true) :
    renderPair (maxKeyLength vars) kv =
        OutputEvent.info (padEnd kv.key (maxKeyLength vars) ++ " = " ++
          (splitOnNl kv.value).headD "") ::
          (splitOnNl kv.value).tail.map (fun line =>
            OutputEvent.info (indentStr (maxKeyLength vars) ++ line)) ∧
      (renderPair (maxKeyLength vars) kv).length = (splitOnNl kv.value).length ∧
      ∀ line ∈ (splitOnNl kv.value).tail,
        (indentStr (maxKeyLength vars) ++ line).toList.take
            (maxKeyLength vars + 3) =
            List.replicate (maxKeyLength vars + 3) ' ' ∧
          (indentStr (maxKeyLength vars) ++ line).toList.drop
            (maxKeyLength vars + 3) = line.toList ∧
          '=' ∉ (indentStr (maxKeyLength vars) ++ line).toList.take
            (maxKeyLength vars + 3) := by
  have hdef : renderPair (maxKeyLength vars) kv =
      OutputEvent.info (padEnd kv.key (maxKeyLength vars) ++ " = " ++
        (splitOnNl kv.value).headD "") ::
        (splitOnNl kv.value).tail.map (fun line =>
          OutputEvent.info (indentStr (maxKeyLength vars) ++ line)) := by
    simp [renderPair, hnl]
  have hlen : (renderPair (maxKeyLength vars) kv).length =
      (splitOnNl kv.value).length := by
    rw [hdef]
    simp [splitOnNl]
  refine ⟨hdef, hlen, ?_⟩
  intro line _
  have hdata : (indentStr (maxKeyLength vars) ++ line).toList =
      List.replicate (maxKeyLength vars + 3) ' ' ++ line.toList := by
    show (indentStr (maxKeyLength vars) ++ line).data = _
    rw [String.data_append]
    rfl
  have hrep : maxKeyLength vars + 3 =
      (List.replicate (maxKeyLength vars + 3) ' ').length := by
    simp
  refine ⟨?_, ?_, ?_⟩
  · rw [hdata]
    nth_rewrite 1 [hrep]
    rw [List.take_left]
  · rw [hdata]
    nth_rewrite 1 [hrep]
    rw [List.drop_left]
  · rw [hdata]
    nth_rewrite 1 [hrep]
    rw [List.take_left]
    intro hc
    rcases List.mem_replicate.mp hc with ⟨_, hc2⟩
    cases hc2

theorem c6_multiline_witness :
    (⟨"X", "a\nb"⟩ : KeyValuePair) ∈ ([⟨"X", "a\nb"⟩] : List KeyValuePair) ∧
      hasNewline "a\nb" = true ∧
      renderPair (maxKeyLength [⟨"X", "a\nb"⟩]) ⟨"X", "a\nb"⟩ =
        OutputEvent.info (padEnd "X" (maxKeyLength [⟨"X", "a\nb"⟩]) ++ " = " ++
          (splitOnNl "a\nb").headD "") ::
          (splitOnNl "a\nb").tail.map (fun line =>
            OutputEvent.info (indentStr (maxKeyLength [⟨"X", "a\nb"⟩]) ++ line)) :=
  ⟨by decide, by decide,
    (c6_multiline [⟨"X", "a\nb"⟩] ⟨"X", "a\nb"⟩ (by decide) (by decide)).1⟩

/-- C7 counterexample: with key `X`, section maximum key length 5 and the
two-line JSON-like value of the spec's example, the code does not produce the
claimed second row with 7 leading spaces: the continuation row is indented by
maxKeyLength + 3 = 8 spaces and keeps the line's own two leading spaces. -/
theorem c7_counterexample :
    renderPair 5 ⟨"X", "\x7b\"a\":1\x7d\n  \"b\":2"⟩ ≠
      [OutputEvent.info "X     = \x7b\"a\":1\x7d",
        OutputEvent.info "       \"b\":2"] := by
  decide

/-- C7 (amended): the example renders as exactly two rows; row 1 is
`X     = {"a":1}` as claimed, and row 2 is the second line of the value
preceded by 10 leading spaces (8 indent spaces for maxKeyLength + 3, plus the
two spaces the line itself starts with), not 7. -/
theorem c7_example_rows :
    renderPair 5 ⟨"X", "\x7b\"a\":1\x7d\n  \"b\":2"⟩ =
      [OutputEvent.info "X     = \x7b\"a\":1\x7d",
        OutputEvent.info "          \"b\":2"] := by
  decide

/-- C8: on a non-Windows platform, when gathering the OS extension fields
throws, the thrown value is converted to a string and appended as exactly one
`OS Info Error` pair after the ten base fields, and the system-information
section is still rendered (the run does not abort). -/
theorem c8_os_error_fallback (st : SystemState) (hplat : st.platform ≠ "win32")
    (e : Option String) (herr : st.osInfo = Except.error e) :
    systemInfoPairs st =
        baseSystemPairs st ++ [⟨"OS Info Error", osErrorString e⟩] ∧
      (systemInfoPairs st).map (fun kv => kv.key) =
        ["Process ID", "Parent Process ID", "User ID", "Group ID",
          "Memory Usage", "CPU Usage", "Uptime", "Command Line Args",
          "Node.js Executable Path", "Node.js Execute Arguments",
          "OS Info Error"] ∧
      ((systemInfoPairs st).filter (fun kv => kv.key == "OS Info Error")).length
          = 1 ∧
      (printSystemInformation st).head? =
        some (OutputEvent.startGroup "System Information") := by
  have hpairs : systemInfoPairs st =
      baseSystemPairs st ++ [⟨"OS Info Error", osErrorString e⟩] := by
    unfold systemInfoPairs
    rw [if_pos hplat, herr]
  refine ⟨hpairs, ?_, ?_, ?_⟩
  · rw [hpairs]
    simp [baseSystemPairs]
  · rw [hpairs]
    simp [baseSystemPairs, List.filter_append, List.filter_cons]
  · unfold printSystemInformation printVariablesToScreen
    rw [hpairs]
    rw [if_neg (by simp [baseSystemPairs])]
    rfl

theorem c8_os_error_fallback_witness :
    (systemInfoPairs ⟨1, 0, some 0, some 0, "m", "c", "1", "[]",
          "/usr/bin/node", "[]", "linux", Except.error (some "boom")⟩).map
        (fun kv => kv.key) =
        ["Process ID", "Parent Process ID", "User ID", "Group ID",
          "Memory Usage", "CPU Usage", "Uptime", "Command Line Args",
          "Node.js Executable Path", "Node.js Execute Arguments",
          "OS Info Error"] ∧
      (printSystemInformation ⟨1, 0, some 0, some 0, "m", "c", "1", "[]",
          "/usr/bin/node", "[]", "linux", Except.error (some "boom")⟩).head? =
        some (OutputEvent.startGroup "System Information") :=
  ⟨(c8_os_error_fallback ⟨1, 0, some 0, some 0, "m", "c", "1", "[]",
      "/usr/bin/node", "[]", "linux", Except.error (some "boom")⟩
      (by decide) (some "boom") rfl).2.1,
    (c8_os_error_fallback ⟨1, 0, some 0, some 0, "m", "c", "1", "[]",
      "/usr/bin/node", "[]", "linux", Except.error (some "boom")⟩
      (by decide) (some "boom") rfl).2.2.2⟩

/-- C9: the orchestrator runs the three stages in order with blank-line
separators: when no stage throws, the outcome contains the three outputs in
order, an empty error channel and exit status 0 (which is what the embedded
pure program produces); when a stage throws, later stages do not contribute,
the error channel gets the fixed `Error running action:` prefix with the
error, and the exit status is 1. -/
theorem c9_orchestration (s1 s2 s3 : StageResult) (lc : String → String → Bool)
    (env : List KeyValuePair) (rs : RunnerState) (st : SystemState) :
    (s1.err = none → s2.err = none → s3.err = none →
        runWith s1 s2 s3 =
          ⟨s1.events ++ [OutputEvent.info ""] ++ s2.events ++
            [OutputEvent.info ""] ++ s3.events, none, 0⟩) ∧
      (∀ e, s1.err = some e →
        runWith s1 s2 s3 = ⟨s1.events, some ("Error running action:", e), 1⟩) ∧
      (∀ e, s1.err = none → s2.err = some e →
        runWith s1 s2 s3 =
          ⟨s1.events ++ [OutputEvent.info ""] ++ s2.events,
            some ("Error running action:", e), 1⟩) ∧
      (∀ e, s1.err = none → s2.err = none → s3.err = some e →
        runWith s1 s2 s3 =
          ⟨s1.events ++ [OutputEvent.info ""] ++ s2.events ++
            [OutputEvent.info ""] ++ s3.events,
            some ("Error running action:", e), 1⟩) ∧
      (runProgram lc env rs st).exitCode = 0 ∧
      (runProgram lc env rs st).errorLog = none ∧
      (runProgram lc env rs st).output =
        printRunnerInformation rs ++ [OutputEvent.info ""] ++
          printAllEnvironmentVariables lc env ++ [OutputEvent.info ""] ++
          printSystemInformation st := by
  refine ⟨?_, ?_, ?_, ?_, rfl, rfl, ?_⟩
  · intro h1 h2 h3
    unfold runWith
    rw [h1, h2, h3]
  · intro e h1
    unfold runWith
    rw [h1]
  · intro e h1 h2
    unfold runWith
    rw [h1, h2]
  · intro e h1 h2 h3
    unfold runWith
    rw [h1, h2, h3]
  · show printRunnerInformation rs ++ [OutputEvent.info ""] ++
      printAllEnvironmentVariables lc env ++ [OutputEvent.info ""] ++
      printSystemInformation st = _
    rfl

theorem c9_orchestration_witness :
    runWith ⟨[OutputEvent.info "a"], none⟩ ⟨[OutputEvent.info "b"], some "boom"⟩
        ⟨[], none⟩ =
      ⟨[OutputEvent.info "a", OutputEvent.info "", OutputEvent.info "b"],
        some ("Error running action:", "boom"), 1⟩ ∧
      (runProgram strLe [] ⟨"v20", "linux", "x64", "/w"⟩
        ⟨1, 0, some 0, some 0, "m", "c", "1", "[]", "/usr/bin/node", "[]",
          "linux", Except.error (some "boom")⟩).exitCode = 0 :=
  ⟨(c9_orchestration ⟨[OutputEvent.info "a"], none⟩
      ⟨[OutputEvent.info "b"], some "boom"⟩ ⟨[], none⟩ strLe []
      ⟨"v20", "linux", "x64", "/w"⟩
      ⟨1, 0, some 0, some 0, "m", "c", "1", "[]", "/usr/bin/node", "[]",
        "linux", Except.error (some "boom")⟩).2.2.1 "boom" rfl rfl,
    (c9_orchestration ⟨[OutputEvent.info "a"], none⟩
      ⟨[OutputEvent.info "b"], some "boom"⟩ ⟨[], none⟩ strLe []
      ⟨"v20", "linux", "x64", "/w"⟩
      ⟨1, 0, some 0, some 0, "m", "c", "1", "[]", "/usr/bin/node", "[]",
        "linux", Except.error (some "boom")⟩).2.2.2.2.1⟩

/-! Commutation of the grouping pipeline with the projection to keys, used to
show that grouping depends only on the key set. -/

/-- Project every group of a grouped-variables map through `f`. -/
def mapG {α β : Type} (f : α → β) (g : List (String × List α)) :
    List (String × List β) :=
  g.map (fun e => (e.1, e.2.map f))

theorem any_mapG {α β : Type} (f : α → β) (g : List (String × List α))
    (p : String) :
    (mapG f g).any (fun e => e.1 == p) = g.any (fun e => e.1 == p) := by
  induction g with
  | nil => rfl
  | cons e t ih =>
    unfold mapG at ih ⊢
    rw [List.map_cons, List.any_cons, List.any_cons, ih]

theorem mapG_addToGroup {α β : Type} (f : α → β) (g : List (String × List α))
    (p : String) (a : α) :
    mapG f (addToGroup g p a) = addToGroup (mapG f g) p (f a) := by
  unfold addToGroup
  rw [any_mapG]
  by_cases hhas : g.any (fun e => e.1 == p) = true
  · rw [if_pos hhas, if_pos hhas]
    unfold mapG
    rw [List.map_map, List.map_map]
    refine List.map_congr_left ?_
    intro e _
    by_cases hep : (e.1 == p) = true
    · simp [Function.comp, updGroup, hep]
    · simp [Function.comp, updGroup, hep]
  · rw [if_neg hhas, if_neg hhas]
    unfold mapG
    rw [List.map_append]
    rfl

theorem mapG_gStep {α β : Type} (f : α → β) (k₁ : α → String) (k₂ : β → String)
    (hk : ∀ a, k₂ (f a) = k₁ a) (g : List (String × List α)) (a : α) :
    mapG f (gStep k₁ g a) = gStep k₂ (mapG f g) (f a) := by
  unfold gStep
  rw [hk]
  by_cases hU : hasUnderscore (k₁ a) = true
  · rw [if_pos hU, if_pos hU]
    exact mapG_addToGroup f g (prefixOf (k₁ a)) a
  · rw [if_neg hU, if_neg hU]

theorem mapG_foldl {α β : Type} (f : α → β) (k₁ : α → String) (k₂ : β → String)
    (hk : ∀ a, k₂ (f a) = k₁ a) :
    ∀ (l : List α) (g : List (String × List α)),
      mapG f (l.foldl (gStep k₁) g) = (l.map f).foldl (gStep k₂) (mapG f g) := by
  intro l
  induction l with
  | nil =>
    intro g
    rfl
  | cons a t ih =>
    intro g
    rw [List.map_cons, List.foldl_cons, List.foldl_cons, ih, mapG_gStep f k₁ k₂ hk]

theorem map_classify_fst {α β : Type} (f : α → β) (k₁ : α → String)
    (k₂ : β → String) (hk : ∀ a, k₂ (f a) = k₁ a) (l : List α) :
    (classify k₂ (l.map f)).1 = ((classify k₁ l).1).map f := by
  rw [classify_fst, classify_fst, List.filter_map]
  refine congrArg (List.map f) ?_
  refine List.filter_congr ?_
  intro a _
  simp [Function.comp, hk]

theorem mapG_classify_snd {α β : Type} (f : α → β) (k₁ : α → String)
    (k₂ : β → String) (hk : ∀ a, k₂ (f a) = k₁ a) (l : List α) :
    (classify k₂ (l.map f)).2 = mapG f (classify k₁ l).2 := by
  rw [classify_snd, classify_snd, mapG_foldl f k₁ k₂ hk]
  rfl

theorem filter_mapG_high {α β : Type} (f : α → β) (g : List (String × List α)) :
    (mapG f g).filter (fun e => decide (1 < e.2.length)) =
      mapG f (g.filter (fun e => decide (1 < e.2.length))) := by
  unfold mapG
  rw [List.filter_map]
  refine congrArg (List.map _) ?_
  refine List.filter_congr ?_
  intro e _
  simp [Function.comp]

theorem filter_mapG_low {α β : Type} (f : α → β) (g : List (String × List α)) :
    (mapG f g).filter (fun e => !decide (1 < e.2.length)) =
      mapG f (g.filter (fun e => !decide (1 < e.2.length))) := by
  unfold mapG
  rw [List.filter_map]
  refine congrArg (List.map _) ?_
  refine List.filter_congr ?_
  intro e _
  simp [Function.comp]

theorem splitGroups_fst_mapG {α β : Type} (f : α → β)
    (g : List (String × List α)) :
    (splitGroups (mapG f g)).1 = (splitGroups g).1 := by
  rw [splitGroups_fst, splitGroups_fst, filter_mapG_high]
  unfold mapG
  rw [List.map_map]
  rfl

theorem splitGroups_snd_mapG {α β : Type} (f : α → β)
    (g : List (String × List α)) :
    (splitGroups (mapG f g)).2 = ((splitGroups g).2).map f := by
  rw [splitGroups_snd, splitGroups_snd, filter_mapG_low]
  unfold mapG
  rw [List.map_map]
  have hmm : ((g.filter (fun e => !decide (1 < e.2.length))).map
        ((fun e : String × List β => e.2) ∘ (fun e : String × List α => (e.1, e.2.map f)))) =
      ((g.filter (fun e => !decide (1 < e.2.length))).map (fun e => e.2)).map
        (List.map f) := by
    rw [List.map_map]
    rfl
  rw [hmm, ← List.map_flatten]

theorem lookupG_mapG {α β : Type} (f : α → β) (g : List (String × List α))
    (p : String) :
    lookupG (mapG f g) p = (lookupG g p).map f := by
  unfold lookupG mapG
  rw [List.find?_map]
  have hcomp : ((fun e : String × List β => e.1 == p) ∘
      (fun e : String × List α => (e.1, e.2.map f))) =
      (fun e : String × List α => e.1 == p) := rfl
  rw [hcomp]
  cases g.find? (fun e => e.1 == p) with
  | none => rfl
  | some e => rfl

theorem sectionsKeyView_eq_mirror (lc : String → String → Bool)
    (env : List KeyValuePair) :
    sectionsKeyView lc env = envSectionsK lc (env.map KeyValuePair.key) := by
  have hS : sortBy strLe (env.map KeyValuePair.key) =
      (getAllEnvironmentVariables env).map KeyValuePair.key :=
    (map_sortBy KeyValuePair.key keyLe strLe (fun a b => rfl) env).symm
  have hGK : envGroupsK (env.map KeyValuePair.key) =
      mapG KeyValuePair.key (envGroups env) := by
    unfold envGroupsK envGroups
    rw [hS]
    exact mapG_classify_snd KeyValuePair.key KeyValuePair.key id (fun a => rfl) _
  have hpreK : preSinglesK (env.map KeyValuePair.key) =
      (preSingles env).map KeyValuePair.key := by
    unfold preSinglesK preSingles
    rw [hGK, hS, map_classify_fst KeyValuePair.key KeyValuePair.key id (fun a => rfl),
      splitGroups_snd_mapG, List.map_append]
  have hfinK : finalSinglesK lc (env.map KeyValuePair.key) =
      (finalSingles lc env).map KeyValuePair.key := by
    unfold finalSinglesK finalSingles
    rw [hpreK]
    exact (map_sortBy KeyValuePair.key (fun a b => lc a.key b.key) lc
      (fun a b => rfl) _).symm
  have hnpK : namedPrefixesK (env.map KeyValuePair.key) = namedPrefixes env := by
    unfold namedPrefixesK namedPrefixes
    rw [hGK, splitGroups_fst_mapG]
  have hlkK : ∀ p, lookupG (envGroupsK (env.map KeyValuePair.key)) p =
      (lookupG (envGroups env) p).map KeyValuePair.key := by
    intro p
    rw [hGK, lookupG_mapG]
  unfold sectionsKeyView envSections envSectionsK
  rw [List.map_cons, List.map_map]
  congr 1
  · rw [hfinK, List.length_map]
  · rw [hnpK]
    refine List.map_congr_left ?_
    intro p _
    simp only [Function.comp_apply]
    rw [hlkK p, List.length_map]

/-- C10: the classification into bucket versus named sections, the section
titles (counts included), and the order of keys within every section are a
function of the key multiset alone: two environments whose key lists are
permutations of each other produce identical title-and-key views of all
sections, whatever the values. -/
theorem c10_key_determinism (lc : String → String → Bool)
    (env₁ env₂ : List KeyValuePair)
    (h : (env₁.map KeyValuePair.key).Perm (env₂.map KeyValuePair.key)) :
    sectionsKeyView lc env₁ = sectionsKeyView lc env₂ := by
  rw [sectionsKeyView_eq_mirror, sectionsKeyView_eq_mirror]
  have hsorted : sortBy strLe (env₁.map KeyValuePair.key) =
      sortBy strLe (env₂.map KeyValuePair.key) :=
    sortBy_eq_of_perm strLe strLe_total strLe_trans strLe_antisymm h
  unfold envSectionsK finalSinglesK preSinglesK namedPrefixesK envGroupsK
  rw [hsorted]

theorem c10_key_determinism_witness :
    ((([⟨"A_B", "1"⟩, ⟨"C", "2"⟩] : List KeyValuePair).map
        KeyValuePair.key).Perm
      (([⟨"C", "xyz"⟩, ⟨"A_B", "q"⟩] : List KeyValuePair).map
        KeyValuePair.key)) ∧
      sectionsKeyView strLe [⟨"A_B", "1"⟩, ⟨"C", "2"⟩] =
        sectionsKeyView strLe [⟨"C", "xyz"⟩, ⟨"A_B", "q"⟩] :=
  ⟨by decide,
    c10_key_determinism strLe [⟨"A_B", "1"⟩, ⟨"C", "2"⟩]
      [⟨"C", "xyz"⟩, ⟨"A_B", "q"⟩] (by decide)⟩

end EnvAction
